import Mathlib

/-!
Shallow embedding of the font catalog and variant-matching core
(`crates/typst-library/src/text/font/variant.rs` and
`crates/typst-library/src/text/font/book.rs`).

Machine integers are modelled as `Nat`/`Int`; `u16` wrap-around is made
explicit where the source performs `i16` arithmetic.  The `Ratio` type of
`crate::layout` (an `f64`-backed ratio, external to the two source files) is
modelled from the spec as `ℚ`: the spec defines stretch distance as the
"absolute ratio difference" and all stretch values are of the form n/1000.
Strings are modelled as `List Char`; lengths count characters.
-/

namespace FontsSpec

/-- The style of a font (`FontStyle` in variant.rs). -/
inductive FontStyle where
  | normal
  | italic
  | oblique
deriving DecidableEq, Inhabited

/-- `FontStyle::distance`: 0 if equal, 1 if both non-normal, 2 otherwise. -/
def FontStyle.distance (self other : FontStyle) : Nat :=
  if self = other then 0
  else if self ≠ FontStyle.normal ∧ other ≠ FontStyle.normal then 1
  else 2

/-- The weight of a font (`FontWeight`, a `u16` newtype). -/
structure FontWeight where
  n : Nat
deriving DecidableEq, Inhabited

/-- Interpret a `u16` value as an `i16` (Rust `as i16`). -/
def i16ofU16 (n : Nat) : Int :=
  if n < 32768 then (n : Int) else (n : Int) - 65536

/-- Wrap an integer into the `i16` range (release-mode overflow semantics). -/
def wrapI16 (z : Int) : Int :=
  (z + 32768) % 65536 - 32768

/-- `FontWeight::distance`: `(self.0 as i16 - other.0 as i16).unsigned_abs()`. -/
def FontWeight.distance (self other : FontWeight) : Nat :=
  (wrapI16 (i16ofU16 self.n - i16ofU16 other.n)).natAbs

/-- `FontWeight::from_number`: clamp into `[100, 900]`. -/
def FontWeight.from_number (weight : Nat) : FontWeight :=
  ⟨max 100 (min weight 900)⟩

/-- The width of a font (`FontStretch`, a `u16` newtype storing permille). -/
structure FontStretch where
  n : Nat
deriving DecidableEq, Inhabited

/-- `FontStretch::to_ratio`: the stored permille over 1000, as a ratio
(`Ratio` modelled as `ℚ`). -/
def FontStretch.to_ratio (self : FontStretch) : ℚ :=
  (self.n : ℚ) / 1000

/-- `FontStretch::distance`: `(self.to_ratio() - other.to_ratio()).abs()`.
The absolute ratio difference is always `|a.n - b.n| / 1000`; it is
represented in exact permille units by its numerator `|a.n - b.n|`.  The
rescaling by 1000 is strictly monotone, so every comparison between stretch
distances (and the zero test) agrees with the ratio form; the theorem
`FontStretch.distance_to_ratio` below makes the correspondence precise. -/
def FontStretch.distance (self other : FontStretch) : Nat :=
  max self.n other.n - min self.n other.n

/-- A requested font variant (`FontVariant`). -/
structure FontVariant where
  style : FontStyle
  weight : FontWeight
  stretch : FontStretch
deriving DecidableEq, Inhabited

/-- A field that is either a static value or a variable range with default
(`Field<T>`, with `StaticField` and `VariableField` inlined: a
`VariableField` carries `range: min..=max` and `default`). -/
inductive Field (α : Type) where
  | static (val : α)
  | variable' (min max default : α)
deriving DecidableEq, Inhabited

/-- `Field::is_variable`. -/
def Field.is_variable {α : Type} : Field α → Bool
  | .static _ => false
  | .variable' _ _ _ => true

/-- `Field::default_value`. -/
def Field.default_value {α : Type} : Field α → α
  | .static v => v
  | .variable' _ _ d => d

/-- A variable font's slant/italic axis information (`SlantAxis`). -/
inductive SlantAxis where
  | none
  | slnt (min max default : Int)
  | ital (default_italic : Bool)
deriving DecidableEq, Inhabited

/-- A variable font's optical size axis (`OpticalSizeAxis`); the `f32` axis
values are modelled as `ℚ` (only compared and selected, never combined
arithmetically in the matcher). -/
inductive OpticalSizeAxis where
  | none
  | opsz (min max default : ℚ)
deriving DecidableEq, Inhabited

/-- Properties describing the coverage of a font variant
(`FontVariantCoverage`). -/
structure FontVariantCoverage where
  style : FontStyle
  weight : Field FontWeight
  stretch : Field FontStretch
  slant_axis : SlantAxis
  optical_size_axis : OpticalSizeAxis
deriving DecidableEq, Inhabited

/-- `RangeInclusive::contains` for `FontWeight` (ordered by its `u16`). -/
def weightRangeContains (lo hi v : FontWeight) : Bool :=
  lo.n ≤ v.n ∧ v.n ≤ hi.n

/-- `RangeInclusive::contains` for `FontStretch` (ordered by its `u16`). -/
def stretchRangeContains (lo hi v : FontStretch) : Bool :=
  lo.n ≤ v.n ∧ v.n ≤ hi.n

/-- `FontVariantCoverage::has_slant_axis`. -/
def FontVariantCoverage.has_slant_axis (self : FontVariantCoverage) : Bool :=
  !(self.slant_axis = SlantAxis.none)

/-- `FontVariantCoverage::has_optical_size_axis`. -/
def FontVariantCoverage.has_optical_size_axis (self : FontVariantCoverage) : Bool :=
  !(self.optical_size_axis = OpticalSizeAxis.none)

/-- `FontVariantCoverage::is_variable`. -/
def FontVariantCoverage.is_variable (self : FontVariantCoverage) : Bool :=
  self.weight.is_variable || self.stretch.is_variable
    || self.has_slant_axis || self.has_optical_size_axis

/-- `FontVariantCoverage::supports`: style equal, and weight/stretch equal to
the static value or inside the variable range. -/
def FontVariantCoverage.supports
    (self : FontVariantCoverage) (variant : FontVariant) : Bool :=
  if self.style ≠ variant.style then false
  else
    let weight_ok := match self.weight with
      | .static s => s = variant.weight
      | .variable' lo hi _ => weightRangeContains lo hi variant.weight
    let stretch_ok := match self.stretch with
      | .static s => s = variant.stretch
      | .variable' lo hi _ => stretchRangeContains lo hi variant.stretch
    weight_ok && stretch_ok

/-- `FontVariantCoverage::distance`: the `(style, stretch, weight)` distance
triple, with slant-axis conditioned style distance and in-range-is-zero
semantics for variable fields.  The stretch component is in permille (see
`FontStretch.distance`). -/
def FontVariantCoverage.distance
    (self : FontVariantCoverage) (variant : FontVariant) : Nat × Nat × Nat :=
  let style_dist : Nat :=
    match self.slant_axis with
    | .slnt mn mx _ =>
      -- A slnt axis can produce oblique/italic if it has negative values.
      let can_produce_slant := mn < 0 ∨ mx < 0
      if self.style = variant.style then 0
      else if self.style = FontStyle.normal
          ∧ (variant.style = FontStyle.italic ∨ variant.style = FontStyle.oblique)
          ∧ can_produce_slant then 0
      else self.style.distance variant.style
    | .ital _ =>
      if self.style = variant.style then 0
      else if self.style = FontStyle.normal
          ∧ (variant.style = FontStyle.italic ∨ variant.style = FontStyle.oblique)
        then 0
      else if self.style = FontStyle.italic ∧ variant.style = FontStyle.normal
        then 0
      else self.style.distance variant.style
    | .none => self.style.distance variant.style
  let weight_dist : Nat :=
    match self.weight with
    | .static s => s.distance variant.weight
    | .variable' lo hi _ =>
      if weightRangeContains lo hi variant.weight then 0
      else if variant.weight.n < lo.n then lo.distance variant.weight
      else hi.distance variant.weight
  let stretch_dist : Nat :=
    match self.stretch with
    | .static s => s.distance variant.stretch
    | .variable' lo hi _ =>
      if stretchRangeContains lo hi variant.stretch then 0
      else if variant.stretch.n < lo.n then lo.distance variant.stretch
      else hi.distance variant.stretch
  (style_dist, stretch_dist, weight_dist)

/-! ## Coverage (book.rs) -/

/-- A compactly encoded set of codepoints (`Coverage`): alternating runs of
codepoints not in / in the set, starting with an out-run. -/
structure Coverage where
  runs : List Nat
deriving DecidableEq, Inhabited

/-- Increment the last element of a list (`*run += 1` on `last_mut`). -/
def bumpLast : List Nat → List Nat
  | [] => []
  | [a] => [a + 1]
  | a :: b :: rest => a :: bumpLast (b :: rest)

/-- The encoding loop of `Coverage::from_vec`: for each codepoint `c` of the
sorted, deduplicated input, extend the trailing in-run when `c == next`,
otherwise push an out-run of `c - next` and a fresh in-run of 1. -/
def fromVecLoop : List Nat → List Nat → Nat → List Nat
  | [], runs, _ => runs
  | c :: cs, runs, next =>
    if runs ≠ [] ∧ c = next then fromVecLoop cs (bumpLast runs) (c + 1)
    else fromVecLoop cs (runs ++ [c - next, 1]) (c + 1)

/-- Remove consecutive duplicates (`Vec::dedup`). -/
def dedupAdj : List Nat → List Nat
  | [] => []
  | [a] => [a]
  | a :: b :: rest =>
    if a = b then dedupAdj (b :: rest) else a :: dedupAdj (b :: rest)

/-- `Coverage::from_vec`: sort ascending, dedup, then run the encoding loop. -/
def Coverage.from_vec (codepoints : List Nat) : Coverage :=
  ⟨fromVecLoop (dedupAdj (List.insertionSort (· ≤ ·) codepoints)) [] 0⟩

/-- The run walk of `Coverage::contains`: at each run the current window is
`[cursor, cursor + run)`; if `c` falls inside, return the current polarity. -/
def containsGo : List Nat → Bool → Nat → Nat → Bool
  | [], _, _, _ => false
  | run :: rest, inside, cursor, c =>
    if cursor ≤ c ∧ c < cursor + run then inside
    else containsGo rest (!inside) (cursor + run) c

/-- `Coverage::contains`. -/
def Coverage.contains (self : Coverage) (c : Nat) : Bool :=
  containsGo self.runs false 0 c

/-- The polarity after skipping `n` runs: flipped iff `n` is odd. -/
def flipPar (n : Nat) (b : Bool) : Bool :=
  if n % 2 = 0 then b else !b

/-! ## Font info and flags (book.rs) -/

/-- Bitflags describing characteristics of a font (`FontFlags`). -/
structure FontFlags where
  monospace : Bool
  serif : Bool
  math : Bool
  variableAxes : Bool
deriving DecidableEq, Inhabited

/-- Properties of a single font (`FontInfo`); the family string is a char
list. -/
structure FontInfo where
  family : List Char
  variant_coverage : FontVariantCoverage
  flags : FontFlags
  coverage : Coverage
deriving DecidableEq, Inhabited

/-- Modelled from the spec: `InstanceParameters` (defined outside the two
source files) is "an optional bundle {weight?, stretch?, slant?, italic?,
opsz?}"; `new` starts empty and each setter fills one slot.  The `f32` slant
value is the exact image of an `i16`, modelled as `Int`; the optical size is
modelled as `ℚ`. -/
structure InstanceParameters where
  weight : Option FontWeight
  stretch : Option FontStretch
  slant : Option Int
  italic : Option Bool
  optical_size : Option ℚ
deriving DecidableEq, Inhabited

/-- `InstanceParameters::new`: the empty bundle. -/
def InstanceParameters.new : InstanceParameters :=
  ⟨none, none, none, none, none⟩

/-- A key identifying a specific font instance (`FontKey`). -/
structure FontKey where
  index : Nat
  instance_params : InstanceParameters
deriving DecidableEq, Inhabited

/-- `FontKey::with_params`. -/
def FontKey.with_params (index : Nat) (instance_params : InstanceParameters) :
    FontKey :=
  ⟨index, instance_params⟩

/-! ## The font book (book.rs) -/

/-- Metadata about a collection of fonts (`FontBook`).  The `BTreeMap` from
lowercased family names to index vectors is modelled as an association list;
only its key-ordered enumeration (unused by any claim) depends on the map's
internal ordering. -/
structure FontBook where
  families : List (List Char × List Nat)
  infos : List FontInfo
deriving DecidableEq, Inhabited

/-- `FontBook::new`. -/
def FontBook.new : FontBook := ⟨[], []⟩

/-- `families.entry(family).or_default().push(index)`: append `index` to the
entry for `key`, creating it if absent. -/
def insertIdx : List (List Char × List Nat) → List Char → Nat →
    List (List Char × List Nat)
  | [], key, index => [(key, [index])]
  | (k, v) :: rest, key, index =>
    if k = key then (k, v ++ [index]) :: rest
    else (k, v) :: insertIdx rest key index

/-- `BTreeMap::get` on the association list. -/
def famLookup : List (List Char × List Nat) → List Char → Option (List Nat)
  | [], _ => none
  | (k, v) :: rest, key => if k = key then some v else famLookup rest key

/-- `String::to_lowercase` (the family names relevant here are ASCII). -/
def lowercase (s : List Char) : List Char :=
  s.map Char.toLower

/-- `FontBook::push`: append the info and record its index under the
lowercased family. -/
def FontBook.push (self : FontBook) (info : FontInfo) : FontBook :=
  { families := insertIdx self.families (lowercase info.family) self.infos.length
    infos := self.infos ++ [info] }

/-- `FontBook::from_infos`. -/
def FontBook.from_infos (infos : List FontInfo) : FontBook :=
  infos.foldl FontBook.push FontBook.new

/-- `&self.infos[id]` (callers only pass in-bounds indices). -/
def FontBook.infoAt (self : FontBook) (id : Nat) : FontInfo :=
  self.infos.getD id default

/-! ## The matching key (book.rs, `find_best_variant`) -/

/-- Modelled from the spec: "`shared_prefix_words` is the count of leading
Unicode words both family strings agree on (Unicode word segmentation;
case-sensitive)".  The external `unicode_words` segmentation is approximated
by splitting on non-alphanumeric characters, which agrees on family names. -/
def splitWords (s : List Char) : List (List Char) :=
  ((s.splitOnP (fun c => !c.isAlphanum)).filter (· ≠ []))

/-- `shared_prefix_words`. -/
def shared_prefix_words (left right : List Char) : Nat :=
  ((splitWords left).zip (splitWords right)).takeWhile
    (fun p => p.1 = p.2) |>.length

/-- The `like`-part of the matching key: monospace mismatch, serif mismatch,
reversed shared-prefix-word count, family length. -/
abbrev LikeKey := Bool ×ₗ (Bool ×ₗ (ℕᵒᵈ ×ₗ ℕ))

/-- The full lexicographic matching key
`(like_part?, style_dist, stretch_dist, weight_dist)`; `Option` ordering
(`None` first) is `WithBot`. -/
abbrev MatchKey := (WithBot LikeKey) ×ₗ (ℕ ×ₗ (ℕ ×ₗ ℕ))

/-- The key computed for candidate `id` inside the `find_best_variant`
loop. -/
def keyFor (book : FontBook) (like : Option FontInfo) (variant : FontVariant)
    (id : Nat) : MatchKey :=
  let current := book.infoAt id
  let d := current.variant_coverage.distance variant
  toLex ((match like with
    | Option.none => (⊥ : WithBot LikeKey)
    | Option.some l =>
      let lk : LikeKey := toLex ((current.flags.monospace != l.flags.monospace),
        toLex ((current.flags.serif != l.flags.serif),
          toLex (OrderDual.toDual (shared_prefix_words current.family l.family),
            current.family.length)))
      ((lk : LikeKey) : WithBot LikeKey)),
    toLex (d.1, toLex (d.2.1, d.2.2)))

/-- The selection loop of `find_best_variant`: keep the first candidate whose
key is strictly smaller than the current best key. -/
def bestLoop (key : Nat → MatchKey) :
    List Nat → Option Nat → Option MatchKey → Option Nat
  | [], best, _ => best
  | id :: rest, best, bestKey =>
    let k := key id
    match bestKey with
    | Option.none => bestLoop key rest (some id) (some k)
    | Option.some bk =>
      if k < bk then bestLoop key rest (some id) (some k)
      else bestLoop key rest best (some bk)

/-- `clamp_to_range` on the underlying `u16` values. -/
def clampNat (value lo hi : Nat) : Nat :=
  if value < lo then lo else if value > hi then hi else value

/-- `f32::clamp` on the `ℚ`-modelled optical size values. -/
def clampRat (value lo hi : ℚ) : ℚ :=
  if value < lo then lo else if value > hi then hi else value

/-- The instance-parameter derivation performed on the winning candidate at
the end of `find_best_variant`. -/
def buildFontKey (book : FontBook) (variant : FontVariant)
    (optical_size : Option ℚ) (id : Nat) : FontKey :=
  let info := book.infoAt id
  let params := InstanceParameters.new
  let params :=
    if info.variant_coverage.is_variable then
      let params := match info.variant_coverage.weight with
        | .variable' lo hi _ =>
          { params with weight := some ⟨clampNat variant.weight.n lo.n hi.n⟩ }
        | .static _ => params
      let params := match info.variant_coverage.stretch with
        | .variable' lo hi _ =>
          { params with stretch := some ⟨clampNat variant.stretch.n lo.n hi.n⟩ }
        | .static _ => params
      let params := match info.variant_coverage.slant_axis with
        | .slnt mn mx df =>
          let slant_value := match variant.style with
            | FontStyle.normal => df
            | FontStyle.italic => min mn mx
            | FontStyle.oblique => min mn mx
          { params with slant := some slant_value }
        | .ital _ =>
          let is_italic := variant.style = FontStyle.italic
            ∨ variant.style = FontStyle.oblique
          { params with italic := some is_italic }
        | .none => params
      let params := match info.variant_coverage.optical_size_axis with
        | .opsz mn mx df =>
          let opsz_value := optical_size.getD df
          { params with optical_size := some (clampRat opsz_value mn mx) }
        | .none => params
      params
    else params
  FontKey.with_params id params

/-- `FontBook::find_best_variant`. -/
def FontBook.find_best_variant (self : FontBook) (like : Option FontInfo)
    (variant : FontVariant) (optical_size : Option ℚ) (ids : List Nat) :
    Option FontKey :=
  (bestLoop (keyFor self like variant) ids none none).map
    (buildFontKey self variant optical_size)

/-- `FontBook::select`. -/
def FontBook.select (self : FontBook) (family : List Char)
    (variant : FontVariant) (optical_size : Option ℚ) : Option FontKey :=
  match famLookup self.families family with
  | Option.none => none
  | Option.some ids => self.find_best_variant none variant optical_size ids

/-! ## Fallback selection (book.rs, `select_fallback`) -/

/-- `char::is_whitespace` (the Unicode `White_Space` property). -/
def isRustWhitespace (c : Char) : Bool :=
  let n := c.toNat
  (0x09 ≤ n ∧ n ≤ 0x0D) ∨ n = 0x20 ∨ n = 0x85 ∨ n = 0xA0 ∨ n = 0x1680
    ∨ (0x2000 ≤ n ∧ n ≤ 0x200A) ∨ n = 0x2028 ∨ n = 0x2029 ∨ n = 0x202F
    ∨ n = 0x205F ∨ n = 0x3000

/-- Modelled from the spec: `is_default_ignorable` (defined outside the two
source files) tests the Unicode `Default_Ignorable_Code_Point` property
("formatting/variation selectors and similar"). -/
def is_default_ignorable (c : Char) : Bool :=
  let n := c.toNat
  n = 0x00AD ∨ n = 0x034F ∨ n = 0x061C ∨ n = 0x115F ∨ n = 0x1160
    ∨ (0x17B4 ≤ n ∧ n ≤ 0x17B5) ∨ (0x180B ≤ n ∧ n ≤ 0x180F)
    ∨ (0x200B ≤ n ∧ n ≤ 0x200F) ∨ (0x202A ≤ n ∧ n ≤ 0x202E)
    ∨ (0x2060 ≤ n ∧ n ≤ 0x206F) ∨ n = 0x3164 ∨ (0xFE00 ≤ n ∧ n ≤ 0xFE0F)
    ∨ n = 0xFEFF ∨ n = 0xFFA0 ∨ (0xFFF0 ≤ n ∧ n ≤ 0xFFF8)
    ∨ (0x1BCA0 ≤ n ∧ n ≤ 0x1BCA3) ∨ (0x1D173 ≤ n ∧ n ≤ 0x1D17A)
    ∨ (0xE0000 ≤ n ∧ n ≤ 0xE0FFF) ∨ (0xE0100 ≤ n ∧ n ≤ 0xE01EF)

/-- The scan for the first character that is neither whitespace nor default
ignorable. -/
def firstValidChar (text : List Char) : Option Char :=
  text.find? (fun c => !isRustWhitespace c && !is_default_ignorable c)

/-- The fallback candidate pool: the indices of the faces whose coverage
contains `c` (`infos.iter().enumerate().filter(..).map(index)`). -/
def candidatesList (infos : List FontInfo) (c : Char) : List Nat :=
  (infos.enum.filter (fun p => p.2.coverage.contains c.toNat)).map Prod.fst

/-- `FontBook::select_fallback`. -/
def FontBook.select_fallback (self : FontBook) (like : Option FontInfo)
    (variant : FontVariant) (text : List Char) (optical_size : Option ℚ) :
    Option FontKey :=
  match firstValidChar text with
  | Option.none => none
  | Option.some c =>
    self.find_best_variant like variant optical_size
      (candidatesList self.infos c)

/-! ## Concrete scenario inputs -/

/-- A static face: family "test", style normal, weight 400, stretch 1000. -/
def staticFace : FontInfo :=
  { family := "test".toList
    variant_coverage :=
      { style := FontStyle.normal
        weight := Field.static ⟨400⟩
        stretch := Field.static ⟨1000⟩
        slant_axis := SlantAxis.none
        optical_size_axis := OpticalSizeAxis.none }
    flags := ⟨false, false, false, false⟩
    coverage := ⟨[]⟩ }

/-- Scenario face B: variable weight `200..=700` with default 400. -/
def varWeightFace : FontInfo :=
  { staticFace with variant_coverage :=
      { staticFace.variant_coverage with
        weight := Field.variable' ⟨200⟩ ⟨700⟩ ⟨400⟩ } }

/-- The catalog of the variable-weight scenario: face A then face B. -/
def weightBook : FontBook :=
  FontBook.from_infos [staticFace, varWeightFace]

/-- The weight-600 query of the variable-weight scenario. -/
def query600 : FontVariant := ⟨FontStyle.normal, ⟨600⟩, ⟨1000⟩⟩

/-- Scenario face with `slant_axis = Slnt{min=-12, max=0, default=0}` and
style Normal. -/
def slntFace : FontInfo :=
  { staticFace with variant_coverage :=
      { staticFace.variant_coverage with
        slant_axis := SlantAxis.slnt (-12) 0 0 } }

/-- The catalog of the slant-promotion scenario. -/
def slntBook : FontBook := FontBook.from_infos [slntFace]

/-- The italic query of the slant-promotion scenario. -/
def queryItalic : FontVariant := ⟨FontStyle.italic, ⟨400⟩, ⟨1000⟩⟩

/-- A face whose coverage contains only codepoint 97 ('a'). -/
def coverAFace : FontInfo :=
  { staticFace with coverage := Coverage.from_vec [97] }

/-- A two-face catalog for fallback/tie-break witnesses. -/
def fallbackBook : FontBook :=
  FontBook.from_infos [coverAFace, staticFace]

/-! ## Typographic family trimming (book.rs, `typographic_family`) -/

/-- Separators between names, modifiers and styles. -/
def SEPARATORS : List Char := [' ', '-', '_']

/-- Modifiers that can appear in combination with suffixes. -/
def MODIFIERS : List (List Char) :=
  ["extra", "ext", "ex", "x", "semi", "sem", "sm", "demi", "dem",
    "ultra"].map String.toList

/-- Style suffixes. -/
def SUFFIXES : List (List Char) :=
  ["normal", "italic", "oblique", "slanted",
    "thin", "th", "hairline", "light", "lt", "regular", "medium", "med",
    "md", "bold", "bd", "demi", "extb", "black", "blk", "bk", "heavy",
    "narrow", "condensed", "cond", "cn", "cd", "compressed", "expanded",
    "exp"].map String.toList

/-- `str::strip_suffix` with a string pattern. -/
def stripSuffix (t suf : List Char) : Option (List Char) :=
  if suf.length ≤ t.length ∧ t.drop (t.length - suf.length) = suf then
    some (t.take (t.length - suf.length))
  else none

/-- `str::strip_suffix(SEPARATORS)`: strip one trailing separator char. -/
def stripSuffixSep (t : List Char) : Option (List Char) :=
  match t.getLast? with
  | Option.some c => if c ∈ SEPARATORS then some t.dropLast else none
  | Option.none => none

/-- The inner loop of `typographic_family`: strip as many style suffixes as
possible, reporting whether at least one was stripped.  Each strip removes a
nonempty suffix, so `t.length + 1` fuel always suffices. -/
def stripStyleSuffixes : Nat → List Char → List Char × Bool
  | 0, t => (t, false)
  | fuel + 1, t =>
    match SUFFIXES.findSome? (stripSuffix t) with
    | Option.some s => ((stripStyleSuffixes fuel s).1, true)
    | Option.none => (t, false)

/-- The outer `while trimmed.len() < len` loop of `typographic_family`,
returning the final `len`.  `trimmed` strictly shortens whenever the loop
continues, so `initial length + 2` fuel always suffices. -/
def trimLoop : Nat → List Char → Nat → Nat
  | 0, _, len => len
  | fuel + 1, trimmed, len =>
    if trimmed.length < len then
      let len := trimmed.length
      let st := stripStyleSuffixes (trimmed.length + 1) trimmed
      if !st.2 then len
      else
        -- Strip optional separator.
        let tr := match stripSuffixSep st.1 with
          | Option.some s => (s, s)
          | Option.none => (trimmed, st.1)
        -- Also allow an extra modifier, but only if separated from the text
        -- before it.
        let trimmed := match MODIFIERS.findSome? (stripSuffix tr.2) with
          | Option.some t =>
            match stripSuffixSep t with
            | Option.some stripped => stripped
            | Option.none => tr.1
          | Option.none => tr.1
        trimLoop fuel trimmed len
    else len

/-- `typographic_family`: trim whitespace and leading dots, strip style
suffixes case-insensitively, return the original casing truncated to the
trimmed length. -/
def typographic_family (family : List Char) : List Char :=
  let family := (((family.dropWhile isRustWhitespace).reverse.dropWhile
    isRustWhitespace).reverse).dropWhile (· = '.')
  let lower := lowercase family
  let len := trimLoop (lower.length + 2) lower (lower.length + 1)
  family.take len

/-! ## Bridging: permille stretch distance vs. the ratio form -/

/-- The permille stretch distance divided by 1000 is exactly the absolute
ratio difference of the source's `FontStretch::distance`. -/
theorem FontStretch.distance_to_ratio (a b : FontStretch) :
    ((a.distance b : ℚ)) / 1000 = |a.to_ratio - b.to_ratio| := by
  rw [FontStretch.to_ratio, FontStretch.to_ratio, div_sub_div_same, abs_div,
    abs_of_pos (by norm_num : (0 : ℚ) < 1000), FontStretch.distance]
  congr 1
  rcases le_total a.n b.n with h | h
  · rw [Nat.max_eq_right h, Nat.min_eq_left h, Nat.cast_sub h, abs_sub_comm,
      abs_of_nonneg (sub_nonneg.mpr (Nat.cast_le.mpr h))]
  · rw [Nat.max_eq_left h, Nat.min_eq_right h, Nat.cast_sub h,
      abs_of_nonneg (sub_nonneg.mpr (Nat.cast_le.mpr h))]

/-! ## Claim theorems: variant model -/

/-- Claim C2: whenever `c.supports(v)` holds, the distance triple has weight
component 0 and stretch component 0. -/
theorem supports_distance_zero (c : FontVariantCoverage) (v : FontVariant)
    (h : c.supports v = true) :
    (c.distance v).2.2 = 0 ∧ (c.distance v).2.1 = 0 := by
  have hstyle : ¬ c.style ≠ v.style := by
    intro hne
    rw [FontVariantCoverage.supports, if_pos hne] at h
    exact Bool.false_ne_true h
  rw [FontVariantCoverage.supports, if_neg hstyle] at h
  simp only [Bool.and_eq_true] at h
  obtain ⟨hw, hs⟩ := h
  constructor
  · rw [FontVariantCoverage.distance]
    cases hwf : c.weight with
    | static s =>
      simp only [hwf, decide_eq_true_eq] at hw
      simp only [hwf]
      subst hw
      simp [FontWeight.distance, wrapI16]
    | variable' lo hi df =>
      simp only [hwf] at hw
      simp only [hwf, hw, if_true]
  · rw [FontVariantCoverage.distance]
    cases hsf : c.stretch with
    | static s =>
      simp only [hsf, decide_eq_true_eq] at hs
      simp only [hsf]
      subst hs
      simp [FontStretch.distance]
    | variable' lo hi df =>
      simp only [hsf] at hs
      simp only [hsf, hs, if_true]

/-- Witness for C2: a concrete coverage supporting a concrete variant has
zero weight and stretch distance. -/
theorem supports_distance_zero_witness :
    staticFace.variant_coverage.supports query600 = false ∧
      (varWeightFace.variant_coverage.supports query600 = true ∧
        (varWeightFace.variant_coverage.distance query600).2.2 = 0 ∧
        (varWeightFace.variant_coverage.distance query600).2.1 = 0) :=
  ⟨by decide,
    ⟨by decide, supports_distance_zero varWeightFace.variant_coverage query600
      (by decide)⟩⟩

/-- Claim C3: a `Slnt` axis with a negative endpoint on a Normal-styled face
makes the style distance to Italic/Oblique requests 0; concretely the
`Slnt{-12,0,0}` face wins an Italic query with style distance 0 and slant
instance value -12. -/
theorem slnt_style_promotion :
    (∀ (c : FontVariantCoverage) (v : FontVariant) (mn mx df : Int),
      c.slant_axis = SlantAxis.slnt mn mx df → (mn < 0 ∨ mx < 0) →
      c.style = FontStyle.normal →
      (v.style = FontStyle.italic ∨ v.style = FontStyle.oblique) →
      (c.distance v).1 = 0)
    ∧ (slntBook.select ("test".toList) queryItalic none
        = some ⟨0, { InstanceParameters.new with slant := some (-12) }⟩
      ∧ (slntFace.variant_coverage.distance queryItalic).1 = 0) := by
  refine ⟨?_, by decide, by decide⟩
  intro c v mn mx df hax hneg hstyle hreq
  rw [FontVariantCoverage.distance, hax]
  simp only
  have hne : ¬ c.style = v.style := by
    rcases hreq with h | h <;> rw [hstyle, h] <;> simp
  rw [if_neg hne, if_pos ⟨hstyle, hreq, hneg⟩]

/-- Witness for C3: the universally quantified part applied at the concrete
slant face and italic query. -/
theorem slnt_style_promotion_witness :
    (slntFace.variant_coverage.distance queryItalic).1 = 0 :=
  slnt_style_promotion.1 slntFace.variant_coverage queryItalic (-12) 0 0
    rfl (Or.inl (by decide)) rfl (Or.inl rfl)

/-- Claim C9: an `Ital` axis on a Normal face promotes Oblique requests to
style distance 0, while an Oblique face with an `Ital` axis keeps the base
style distance 2 to a Normal request. -/
theorem ital_oblique_promotion :
    (∀ (c : FontVariantCoverage) (v : FontVariant) (b : Bool),
      c.slant_axis = SlantAxis.ital b → c.style = FontStyle.normal →
      v.style = FontStyle.oblique → (c.distance v).1 = 0)
    ∧ (∀ (c : FontVariantCoverage) (v : FontVariant) (b : Bool),
      c.slant_axis = SlantAxis.ital b → c.style = FontStyle.oblique →
      v.style = FontStyle.normal → (c.distance v).1 = 2) := by
  constructor
  · intro c v b hax hstyle hreq
    rw [FontVariantCoverage.distance, hax]
    simp only
    rw [if_neg (by rw [hstyle, hreq]; simp), if_pos ⟨hstyle, Or.inr hreq⟩]
  · intro c v b hax hstyle hreq
    rw [FontVariantCoverage.distance, hax]
    simp only
    rw [if_neg (by rw [hstyle, hreq]; simp),
      if_neg (by rw [hstyle]; simp),
      if_neg (by rw [hstyle]; simp),
      hstyle, hreq]
    decide

/-- Witness for C9: both parts applied at concrete coverages. -/
theorem ital_oblique_promotion_witness :
    (({ staticFace.variant_coverage with
        slant_axis := SlantAxis.ital false } :
          FontVariantCoverage).distance
        ⟨FontStyle.oblique, ⟨400⟩, ⟨1000⟩⟩).1 = 0
    ∧ (({ staticFace.variant_coverage with
        style := FontStyle.oblique
        slant_axis := SlantAxis.ital false } :
          FontVariantCoverage).distance
        ⟨FontStyle.normal, ⟨400⟩, ⟨1000⟩⟩).1 = 2 :=
  ⟨ital_oblique_promotion.1 _ _ false rfl rfl rfl,
    ital_oblique_promotion.2 _ _ false rfl rfl rfl⟩

/-- Claim C1: with face A (static weight 400) and face B (variable weight
200..=700, default 400) of equal style and stretch, a weight-600 query
selects B (weight distance 0 vs 200) and the returned key carries instance
weight 600. -/
theorem variable_weight_selection :
    weightBook.select ("test".toList) query600 none
      = some ⟨1, { InstanceParameters.new with weight := some ⟨600⟩ }⟩
    ∧ (varWeightFace.variant_coverage.distance query600).2.2 = 0
    ∧ (staticFace.variant_coverage.distance query600).2.2 = 200 := by
  refine ⟨by decide, by decide, by decide⟩

/-- Claim C7: the literal typographic-family trimming examples, with the
original casing truncated to the trimmed length. -/
theorem typographic_family_examples :
    typographic_family ("Atma Light".toList) = "Atma".toList
    ∧ typographic_family ("footlight mt light".toList) = "footlight mt".toList
    ∧ typographic_family ("times new roman".toList) = "times new roman".toList
    ∧ typographic_family ("noto sans mono cond sembd".toList)
        = "noto sans mono".toList
    ∧ typographic_family ("Noto Sans Semicondensed Heavy".toList)
        = "Noto Sans".toList
    ∧ typographic_family ("Font Ultra".toList) = "Font Ultra".toList
    ∧ typographic_family ("Font Ultra Bold".toList) = "Font".toList := by
  refine ⟨by decide, by decide, by decide, by decide, by decide, by decide,
    by decide⟩

/-! ## Coverage lemmas -/

/-- The run walk returns false for codepoints below the cursor. -/
theorem containsGo_lt_cursor :
    ∀ (runs : List Nat) (inside : Bool) (cursor c : Nat),
      c < cursor → containsGo runs inside cursor c = false := by
  intro runs
  induction runs with
  | nil => intro inside cursor c _; rfl
  | cons r rest ih =>
    intro inside cursor c hc
    rw [containsGo, if_neg (by omega)]
    exact ih (!inside) (cursor + r) c (by omega)

/-- The run walk returns false for codepoints at or past the total length. -/
theorem containsGo_ge_sum :
    ∀ (runs : List Nat) (inside : Bool) (cursor c : Nat),
      cursor + runs.sum ≤ c → containsGo runs inside cursor c = false := by
  intro runs
  induction runs with
  | nil => intro inside cursor c _; rfl
  | cons r rest ih =>
    intro inside cursor c hc
    rw [List.sum_cons] at hc
    rw [containsGo, if_neg (by omega)]
    exact ih (!inside) (cursor + r) c (by omega)

/-- A codepoint inside the windows of a run prefix is decided by that
prefix. -/
theorem containsGo_append_lt :
    ∀ (runs ext : List Nat) (inside : Bool) (cursor c : Nat),
      c < cursor + runs.sum →
      containsGo (runs ++ ext) inside cursor c
        = containsGo runs inside cursor c := by
  intro runs
  induction runs with
  | nil =>
    intro ext inside cursor c hc
    simp only [List.sum_nil, Nat.add_zero] at hc
    rw [List.nil_append, containsGo]
    exact containsGo_lt_cursor ext inside cursor c hc
  | cons r rest ih =>
    intro ext inside cursor c hc
    rw [List.sum_cons] at hc
    rw [List.cons_append, containsGo, containsGo]
    by_cases hcond : cursor ≤ c ∧ c < cursor + r
    · rw [if_pos hcond, if_pos hcond]
    · rw [if_neg hcond, if_neg hcond]
      rcases Nat.lt_or_ge c (cursor + r) with hlt | hge
      · rw [containsGo_lt_cursor _ _ _ _ (by omega),
          containsGo_lt_cursor _ _ _ _ (by omega)]
      · exact ih ext (!inside) (cursor + r) c (by omega)

/-- Parity of the flip alternation. -/
theorem flipPar_succ (n : Nat) (b : Bool) :
    flipPar (n + 1) b = flipPar n (!b) := by
  rcases Nat.mod_two_eq_zero_or_one n with h | h
  · have h2 : (n + 1) % 2 = 1 := by omega
    simp [flipPar, h, h2]
  · have h2 : (n + 1) % 2 = 0 := by omega
    simp [flipPar, h, h2]

/-- A codepoint past the windows of a run prefix is decided by the suffix at
the cursor and polarity the prefix leaves behind. -/
theorem containsGo_append_ge :
    ∀ (runs ext : List Nat) (inside : Bool) (cursor c : Nat),
      cursor + runs.sum ≤ c →
      containsGo (runs ++ ext) inside cursor c
        = containsGo ext (flipPar runs.length inside) (cursor + runs.sum) c := by
  intro runs
  induction runs with
  | nil =>
    intro ext inside cursor c _
    simp [flipPar]
  | cons r rest ih =>
    intro ext inside cursor c hc
    rw [List.sum_cons] at hc
    rw [List.cons_append, containsGo, if_neg (by omega),
      ih ext (!inside) (cursor + r) c (by omega), List.length_cons,
      flipPar_succ, List.sum_cons]
    congr 1
    omega

/-- `bumpLast` distributes over a cons with nonempty tail. -/
theorem bumpLast_cons (a : Nat) (l : List Nat) (h : l ≠ []) :
    bumpLast (a :: l) = a :: bumpLast l := by
  cases l with
  | nil => exact absurd rfl h
  | cons b rest => rfl

/-- `bumpLast` increments the final element. -/
theorem bumpLast_concat :
    ∀ (init : List Nat) (last : Nat),
      bumpLast (init ++ [last]) = init ++ [last + 1] := by
  intro init
  induction init with
  | nil => intro last; rfl
  | cons a init ih =>
    intro last
    rw [List.cons_append, bumpLast_cons _ _ (by simp), ih, List.cons_append]

/-- `bumpLast` preserves positivity of elements. -/
theorem bumpLast_pos :
    ∀ (l : List Nat), (∀ y ∈ l, 0 < y) → ∀ y ∈ bumpLast l, 0 < y := by
  intro l
  induction l with
  | nil => intro _ y hy; exact absurd hy (by simp [bumpLast])
  | cons a l ih =>
    intro h y hy
    cases l with
    | nil =>
      simp only [bumpLast, List.mem_singleton] at hy
      omega
    | cons b rest =>
      rw [bumpLast_cons _ _ (by simp)] at hy
      rcases List.mem_cons.mp hy with rfl | hy'
      · exact h y (by simp)
      · exact ih (fun z hz => h z (List.mem_cons_of_mem a hz)) y hy'

/-- `bumpLast` on a nonempty list increments the sum by one. -/
theorem bumpLast_sum :
    ∀ (l : List Nat), l ≠ [] → (bumpLast l).sum = l.sum + 1 := by
  intro l
  induction l with
  | nil => intro h; exact absurd rfl h
  | cons a l ih =>
    intro _
    cases l with
    | nil => simp [bumpLast]
    | cons b rest =>
      rw [bumpLast_cons _ _ (by simp), List.sum_cons, List.sum_cons,
        ih (by simp)]
      rw [List.sum_cons]
      omega

/-- Membership is preserved by adjacent deduplication. -/
theorem mem_dedupAdj :
    ∀ (l : List Nat) (x : Nat), x ∈ dedupAdj l ↔ x ∈ l := by
  intro l
  induction l with
  | nil => intro x; rfl
  | cons a l ih =>
    intro x
    cases l with
    | nil => rfl
    | cons b rest =>
      rw [dedupAdj]
      split
      · rename_i hab
        rw [ih x]
        subst hab
        simp [List.mem_cons]
      · simp only [List.mem_cons] at ih ⊢
        rw [ih x]

/-- Adjacent deduplication of a `≤`-sorted list is strictly sorted. -/
theorem pairwise_lt_dedupAdj :
    ∀ (l : List Nat), l.Pairwise (· ≤ ·) → (dedupAdj l).Pairwise (· < ·) := by
  intro l
  induction l with
  | nil => intro _; exact List.Pairwise.nil
  | cons a l ih =>
    intro h
    cases l with
    | nil => simp [dedupAdj]
    | cons b rest =>
      rw [dedupAdj]
      obtain ⟨ha, htail⟩ := List.pairwise_cons.mp h
      split
      · exact ih htail
      · rename_i hab
        refine List.Pairwise.cons ?_ (ih htail)
        intro y hy
        have hyb : y ∈ b :: rest := (mem_dedupAdj _ y).mp hy
        have hab' : a < b := lt_of_le_of_ne (ha b (by simp)) hab
        rcases List.mem_cons.mp hyb with rfl | hyr
        · exact hab'
        · exact lt_of_lt_of_le hab'
            ((List.pairwise_cons.mp htail).1 y hyr)

/-- Master invariant of the encoding loop: starting from runs that encode the
membership predicate `P` on `[0, next)` (with even run count and total length
`next`), processing a strictly increasing list of codepoints `≥ next` yields
runs that encode `P` extended by exactly those codepoints. -/
theorem fromVecLoop_containsGo :
    ∀ (cs runs : List Nat) (next : Nat) (P : Nat → Bool),
      cs.Pairwise (· < ·) →
      (∀ c ∈ cs, next ≤ c) →
      runs.sum = next →
      runs.length % 2 = 0 →
      (∀ x, containsGo runs false 0 x = P x) →
      (∀ x, next ≤ x → P x = false) →
      ∀ x, containsGo (fromVecLoop cs runs next) false 0 x
        = (P x || decide (x ∈ cs)) := by
  intro cs
  induction cs with
  | nil =>
    intro runs next P _ _ _ _ hmem _ x
    rw [fromVecLoop, hmem x]
    simp
  | cons c cs ih =>
    intro runs next P hpair hge hsum heven hmem hP x
    have hc : next ≤ c := hge c (by simp)
    obtain ⟨hhead, htail⟩ := List.pairwise_cons.mp hpair
    rw [fromVecLoop]
    by_cases hcond : runs ≠ [] ∧ c = next
    · rw [if_pos hcond]
      obtain ⟨hne, hceq⟩ := hcond
      rcases (List.eq_nil_or_concat runs).resolve_left hne with ⟨init, last, rfl⟩
      rw [List.concat_eq_append] at *
      have hinitlen : init.length % 2 = 1 := by
        rw [List.length_append] at heven
        simp at heven
        omega
      have hsum' : init.sum + last = next := by
        rw [List.sum_append] at hsum
        simpa using hsum
      have hflip : flipPar init.length false = true := by
        simp [flipPar, hinitlen]
      rw [bumpLast_concat]
      have hmem' : ∀ y, containsGo (init ++ [last + 1]) false 0 y
          = (P y || decide (y = c)) := by
        intro y
        rcases Nat.lt_or_ge y init.sum with hy | hy
        · rw [containsGo_append_lt _ _ _ _ _ (by omega),
            ← containsGo_append_lt init [last] false 0 y (by omega), hmem y]
          have hyne : ¬ y = c := by omega
          simp [hyne]
        · have h1 : containsGo (init ++ [last + 1]) false 0 y
              = decide (y < init.sum + (last + 1)) := by
            rw [containsGo_append_ge _ _ _ _ _ (by omega), hflip]
            simp only [containsGo]
            by_cases hw : 0 + init.sum ≤ y ∧ y < 0 + init.sum + (last + 1)
            · rw [if_pos hw]
              simp
              omega
            · rw [if_neg hw]
              simp
              omega
          have h2 : P y = decide (y < init.sum + last) := by
            rw [← hmem y,
              containsGo_append_ge init [last] false 0 y (by omega), hflip]
            simp only [containsGo]
            by_cases hw : 0 + init.sum ≤ y ∧ y < 0 + init.sum + last
            · rw [if_pos hw]
              simp
              omega
            · rw [if_neg hw]
              simp
              omega
          rw [h1, h2, ← Bool.decide_or, decide_eq_decide]
          omega
      rw [ih (init ++ [last + 1]) (c + 1) (fun y => P y || decide (y = c))
        htail (fun y hy => hhead y hy)
        (by rw [List.sum_append]; simp; omega)
        (by rw [List.length_append] at heven ⊢; simpa using heven)
        hmem'
        (by
          intro y hy
          have h1 : P y = false := hP y (by omega)
          have h2 : ¬ y = c := by omega
          simp [h1, h2])]
      simp [List.mem_cons, Bool.decide_or, Bool.or_assoc]
    · rw [if_neg hcond]
      have hgap : runs = [] ∨ next < c := by
        by_cases hr : runs = []
        · exact Or.inl hr
        · have : ¬ c = next := fun h => hcond ⟨hr, h⟩
          omega
      have hflip : flipPar runs.length false = false := by
        simp [flipPar, heven]
      have hmem' : ∀ y, containsGo (runs ++ [c - next, 1]) false 0 y
          = (P y || decide (y = c)) := by
        intro y
        rcases Nat.lt_or_ge y next with hy | hy
        · rw [containsGo_append_lt _ _ _ _ _ (by omega), hmem y]
          have hyne : ¬ y = c := by omega
          simp [hyne]
        · rw [containsGo_append_ge _ _ _ _ _ (by omega), hflip, hsum,
            hP y hy]
          simp only [containsGo]
          by_cases h1 : 0 + next ≤ y ∧ y < 0 + next + (c - next)
          · rw [if_pos h1]
            have hyne : ¬ y = c := by omega
            simp [hyne]
          · rw [if_neg h1]
            by_cases h2 : 0 + next + (c - next) ≤ y
                ∧ y < 0 + next + (c - next) + 1
            · rw [if_pos h2]
              have hyeq : y = c := by omega
              simp [hyeq]
            · rw [if_neg h2]
              have hyne : ¬ y = c := by omega
              simp [hyne]
      rw [ih (runs ++ [c - next, 1]) (c + 1) (fun y => P y || decide (y = c))
        htail (fun y hy => hhead y hy)
        (by rw [List.sum_append]; simp; omega)
        (by simp; omega)
        hmem'
        (by
          intro y hy
          have h1 : P y = false := hP y (by omega)
          have h2 : ¬ y = c := by omega
          simp [h1, h2])]
      simp [List.mem_cons, Bool.decide_or, Bool.or_assoc]

/-- Claim C6: `Coverage::from_vec` builds a coverage whose membership test
agrees exactly with membership in the input, and the documented example
encodes to runs `[2, 3, 4, 3, 3, 1, 2, 2]`. -/
theorem coverage_contains_iff :
    (∀ (input : List Nat) (c : Nat),
      (Coverage.from_vec input).contains c = decide (c ∈ input))
    ∧ (Coverage.from_vec [2, 3, 4, 9, 10, 11, 15, 18, 19]).runs
        = [2, 3, 4, 3, 3, 1, 2, 2] := by
  constructor
  · intro input x
    rw [Coverage.from_vec, Coverage.contains]
    have hsorted : (List.insertionSort (· ≤ ·) input).Pairwise (· ≤ ·) :=
      List.sorted_insertionSort (· ≤ ·) input
    have hpair := pairwise_lt_dedupAdj _ hsorted
    have hmeml : ∀ y, y ∈ dedupAdj (List.insertionSort (· ≤ ·) input)
        ↔ y ∈ input := fun y =>
      (mem_dedupAdj _ y).trans
        ((List.perm_insertionSort (· ≤ ·) input).mem_iff)
    rw [fromVecLoop_containsGo _ [] 0 (fun _ => false) hpair
      (fun c _ => Nat.zero_le c) rfl rfl (fun _ => rfl) (fun _ _ => rfl) x]
    simp only [Bool.false_or]
    exact decide_eq_decide.mpr (hmeml x)
  · decide

/-- The encoding loop keeps all runs after the first positive. -/
theorem fromVecLoop_tail_pos :
    ∀ (cs runs : List Nat) (next : Nat),
      cs.Pairwise (· < ·) →
      (∀ c ∈ cs, next ≤ c) →
      (∀ y ∈ runs.drop 1, 0 < y) →
      ∀ y ∈ (fromVecLoop cs runs next).drop 1, 0 < y := by
  intro cs
  induction cs with
  | nil =>
    intro runs next _ _ hpos
    rw [fromVecLoop]
    exact hpos
  | cons c cs ih =>
    intro runs next hpair hge hpos
    have hc : next ≤ c := hge c (by simp)
    obtain ⟨hhead, htail⟩ := List.pairwise_cons.mp hpair
    rw [fromVecLoop]
    by_cases hcond : runs ≠ [] ∧ c = next
    · rw [if_pos hcond]
      refine ih (bumpLast runs) (c + 1) htail (fun y hy => by
        have := hhead y hy
        omega) ?_
      cases runs with
      | nil => exact hpos
      | cons r rest =>
        cases rest with
        | nil => simp [bumpLast]
        | cons b rest' =>
          rw [bumpLast_cons _ _ (by simp), List.drop_one, List.tail_cons]
          exact bumpLast_pos _ (fun z hz => hpos z (by simpa using hz))
    · rw [if_neg hcond]
      refine ih (runs ++ [c - next, 1]) (c + 1) htail (fun y hy => by
        have := hhead y hy
        omega) ?_
      intro y hy
      cases runs with
      | nil => simp at hy; omega
      | cons r rest =>
        have hgap : next < c := by
          have : ¬ c = next := fun h => hcond ⟨by simp, h⟩
          omega
        rw [List.cons_append, List.drop_one, List.tail_cons] at hy
        rcases List.mem_append.mp hy with hy' | hy'
        · exact hpos y (by simpa using hy')
        · simp at hy'
          omega

/-- The encoding loop's final runs sum to one past the last codepoint. -/
theorem fromVecLoop_sum :
    ∀ (cs runs : List Nat) (next : Nat) (h : cs ≠ []),
      (∀ c ∈ cs, next ≤ c) →
      cs.Pairwise (· < ·) →
      runs.sum = next →
      (fromVecLoop cs runs next).sum = cs.getLast h + 1 := by
  intro cs
  induction cs with
  | nil => intro runs next h; exact absurd rfl h
  | cons c cs ih =>
    intro runs next _ hge hpair hsum
    have hc : next ≤ c := hge c (by simp)
    obtain ⟨hhead, htail⟩ := List.pairwise_cons.mp hpair
    rw [fromVecLoop]
    by_cases hcond : runs ≠ [] ∧ c = next
    · rw [if_pos hcond]
      have hsum' : (bumpLast runs).sum = c + 1 := by
        rw [bumpLast_sum runs hcond.1, hsum, hcond.2]
      rcases eq_or_ne cs [] with rfl | hne
      · rw [fromVecLoop, List.getLast_singleton]
        exact hsum'
      · rw [List.getLast_cons hne]
        exact ih (bumpLast runs) (c + 1) hne
          (fun y hy => by have := hhead y hy; omega) htail hsum'
    · rw [if_neg hcond]
      have hsum' : (runs ++ [c - next, 1]).sum = c + 1 := by
        rw [List.sum_append, hsum]
        simp
        omega
      rcases eq_or_ne cs [] with rfl | hne
      · rw [fromVecLoop, List.getLast_singleton]
        exact hsum'
      · rw [List.getLast_cons hne]
        exact ih (runs ++ [c - next, 1]) (c + 1) hne
          (fun y hy => by have := hhead y hy; omega) htail hsum'

/-- Every element is bounded by the `foldr max 0` of its list. -/
theorem le_foldr_max :
    ∀ (l : List Nat) (x : Nat), x ∈ l → x ≤ l.foldr max 0 := by
  intro l
  induction l with
  | nil => intro x hx; exact absurd hx (by simp)
  | cons a l ih =>
    intro x hx
    rcases List.mem_cons.mp hx with rfl | hx'
    · exact le_max_left _ _
    · exact le_trans (ih x hx') (le_max_right _ _)

/-- The `foldr max 0` of a nonempty list is one of its elements. -/
theorem foldr_max_mem :
    ∀ (l : List Nat), l ≠ [] → l.foldr max 0 ∈ l := by
  intro l
  induction l with
  | nil => intro h; exact absurd rfl h
  | cons a l ih =>
    intro _
    rcases eq_or_ne l [] with rfl | hne
    · simp
    · rw [List.foldr_cons]
      rcases max_choice a (l.foldr max 0) with h | h
      · rw [h]; simp
      · rw [h]
        exact List.mem_cons_of_mem a (ih hne)

/-- In a `≤`-sorted list, every element is bounded by the last. -/
theorem le_getLast_of_sorted :
    ∀ (l : List Nat), l.Pairwise (· ≤ ·) → ∀ (hne : l ≠ []) (x : Nat),
      x ∈ l → x ≤ l.getLast hne := by
  intro l
  induction l with
  | nil => intro _ hne; exact absurd rfl hne
  | cons a l ih =>
    intro h hne x hx
    obtain ⟨hhead, htail⟩ := List.pairwise_cons.mp h
    rcases eq_or_ne l [] with rfl | hne'
    · simp at hx
      subst hx
      simp [List.getLast_singleton]
    · rw [List.getLast_cons hne']
      rcases List.mem_cons.mp hx with rfl | hx'
      · exact hhead _ (List.getLast_mem hne')
      · exact ih htail hne' x hx'

/-- Claim C8: the run vector of `Coverage::from_vec` has no zero entry past
the first position, and for a nonempty input its total equals the highest
covered codepoint plus one. -/
theorem runs_invariant :
    (∀ (input : List Nat), ∀ y ∈ (Coverage.from_vec input).runs.drop 1, 0 < y)
    ∧ (∀ (input : List Nat), input ≠ [] →
        (Coverage.from_vec input).runs.sum = input.foldr max 0 + 1) := by
  constructor
  · intro input y hy
    have hsorted : (List.insertionSort (· ≤ ·) input).Pairwise (· ≤ ·) :=
      List.sorted_insertionSort (· ≤ ·) input
    exact fromVecLoop_tail_pos _ [] 0 (pairwise_lt_dedupAdj _ hsorted)
      (fun c _ => Nat.zero_le c) (by simp) y hy
  · intro input hne
    have hsorted : (List.insertionSort (· ≤ ·) input).Pairwise (· ≤ ·) :=
      List.sorted_insertionSort (· ≤ ·) input
    have hmeml : ∀ y, y ∈ dedupAdj (List.insertionSort (· ≤ ·) input)
        ↔ y ∈ input := fun y =>
      (mem_dedupAdj _ y).trans
        ((List.perm_insertionSort (· ≤ ·) input).mem_iff)
    obtain ⟨w, hw⟩ := List.exists_mem_of_ne_nil input hne
    have hlne : dedupAdj (List.insertionSort (· ≤ ·) input) ≠ [] :=
      List.ne_nil_of_mem ((hmeml w).mpr hw)
    rw [Coverage.from_vec]
    rw [fromVecLoop_sum _ [] 0 hlne (fun c _ => Nat.zero_le c)
      (pairwise_lt_dedupAdj _ hsorted) rfl]
    congr 1
    have hpairle : (dedupAdj (List.insertionSort (· ≤ ·) input)).Pairwise
        (· ≤ ·) :=
      (pairwise_lt_dedupAdj _ hsorted).imp le_of_lt
    refine le_antisymm ?_ ?_
    · exact le_foldr_max input _
        ((hmeml _).mp (List.getLast_mem hlne))
    · exact le_getLast_of_sorted _ hpairle hlne _
        ((hmeml _).mpr (foldr_max_mem input hne))

/-- Witness for C8: both parts applied at the concrete input `[5, 2]`. -/
theorem runs_invariant_witness :
    0 < 1
    ∧ (Coverage.from_vec [5, 2]).runs.sum = [5, 2].foldr max 0 + 1 :=
  ⟨runs_invariant.1 [5, 2] 1 (by decide), runs_invariant.2 [5, 2] (by decide)⟩

/-! ## Best-variant selection lemmas -/

/-- The selection loop, started on a current best `b`, returns either `b`
itself (when nothing beats it) or the first strict improvement that nothing
later beats. -/
theorem bestLoop_some_spec (key : Nat → MatchKey) :
    ∀ (rest : List Nat) (b : Nat),
      (bestLoop key rest (some b) (some (key b)) = some b
        ∧ ∀ j ∈ rest, ¬ key j < key b)
      ∨ (∃ n, n < rest.length
          ∧ bestLoop key rest (some b) (some (key b))
              = some (rest.getD n 0)
          ∧ key (rest.getD n 0) < key b
          ∧ (∀ j ∈ rest, ¬ key j < key (rest.getD n 0))
          ∧ (∀ m, m < n → key (rest.getD n 0) < key (rest.getD m 0))) := by
  intro rest
  induction rest with
  | nil =>
    intro b
    exact Or.inl ⟨rfl, fun j hj => absurd hj (by simp)⟩
  | cons c rest ih =>
    intro b
    rw [bestLoop]
    by_cases hlt : key c < key b
    · rw [if_pos hlt]
      rcases ih c with ⟨heq, hall⟩ | ⟨n, hn, heq, hlt', hall, hfirst⟩
      · refine Or.inr ⟨0, by simp, ?_, ?_, ?_, ?_⟩
        · simpa using heq
        · simpa using hlt
        · intro j hj
          rcases List.mem_cons.mp hj with rfl | hj'
          · simp [lt_irrefl]
          · simpa using hall j hj'
        · intro m hm
          exact absurd hm (Nat.not_lt_zero m)
      · refine Or.inr ⟨n + 1, by simpa using hn, ?_, ?_, ?_, ?_⟩
        · simpa using heq
        · exact lt_trans hlt' hlt
        · intro j hj
          rcases List.mem_cons.mp hj with rfl | hj'
          · simpa using lt_asymm hlt'
          · simpa using hall j hj'
        · intro m hm
          cases m with
          | zero => simpa using hlt'
          | succ m' => simpa using hfirst m' (by omega)
    · rw [if_neg hlt]
      rcases ih b with ⟨heq, hall⟩ | ⟨n, hn, heq, hlt', hall, hfirst⟩
      · refine Or.inl ⟨heq, ?_⟩
        intro j hj
        rcases List.mem_cons.mp hj with rfl | hj'
        · exact hlt
        · exact hall j hj'
      · refine Or.inr ⟨n + 1, by simpa using hn, ?_, ?_, ?_, ?_⟩
        · simpa using heq
        · exact hlt'
        · intro j hj
          rcases List.mem_cons.mp hj with rfl | hj'
          · simp only [List.getD_cons_succ]
            intro hcontra
            exact hlt (lt_trans hcontra hlt')
          · simpa using hall j hj'
        · intro m hm
          cases m with
          | zero =>
            simp only [List.getD_cons_succ, List.getD_cons_zero]
            exact lt_of_lt_of_le hlt' (le_of_not_lt hlt)
          | succ m' => simpa using hfirst m' (by omega)

/-- Claim C5: on a nonempty candidate pool, `find_best_variant` returns the
first-encountered candidate attaining the minimal lexicographic key: nothing
in the pool has a strictly smaller key, and every earlier candidate has a
strictly larger key (so an equal later key never replaces the winner). -/
theorem find_best_first_min (book : FontBook) (like : Option FontInfo)
    (variant : FontVariant) (optical_size : Option ℚ) (ids : List Nat)
    (h : ids ≠ []) :
    ∃ n, n < ids.length
      ∧ book.find_best_variant like variant optical_size ids
          = some (buildFontKey book variant optical_size (ids.getD n 0))
      ∧ (∀ j ∈ ids, ¬ keyFor book like variant j
          < keyFor book like variant (ids.getD n 0))
      ∧ (∀ m, m < n → keyFor book like variant (ids.getD n 0)
          < keyFor book like variant (ids.getD m 0)) := by
  cases ids with
  | nil => exact absurd rfl h
  | cons c rest =>
    rw [FontBook.find_best_variant, bestLoop]
    rcases bestLoop_some_spec (keyFor book like variant) rest c with
      ⟨heq, hall⟩ | ⟨n, hn, heq, hlt', hall, hfirst⟩
    · refine ⟨0, by simp, ?_, ?_, ?_⟩
      · rw [heq]
        rfl
      · intro j hj
        rcases List.mem_cons.mp hj with rfl | hj'
        · simp [lt_irrefl]
        · simpa using hall j hj'
      · intro m hm
        exact absurd hm (Nat.not_lt_zero m)
    · refine ⟨n + 1, by simpa using hn, ?_, ?_, ?_⟩
      · rw [heq]
        rfl
      · intro j hj
        rcases List.mem_cons.mp hj with rfl | hj'
        · simpa using lt_asymm hlt'
        · simpa using hall j hj'
      · intro m hm
        cases m with
        | zero => simpa using hlt'
        | succ m' => simpa using hfirst m' (by omega)

/-- Witness for C5: the first-minimum property instantiated on a concrete
two-candidate pool with equal keys. -/
theorem find_best_first_min_witness :
    ∃ n, n < ([0, 1] : List Nat).length
      ∧ weightBook.find_best_variant none query600 none [0, 1]
          = some (buildFontKey weightBook query600 none
              (([0, 1] : List Nat).getD n 0))
      ∧ (∀ j ∈ ([0, 1] : List Nat),
          ¬ keyFor weightBook none query600 j
            < keyFor weightBook none query600 (([0, 1] : List Nat).getD n 0))
      ∧ (∀ m, m < n → keyFor weightBook none query600
            (([0, 1] : List Nat).getD n 0)
          < keyFor weightBook none query600 (([0, 1] : List Nat).getD m 0)) :=
  find_best_first_min weightBook none query600 none [0, 1] (by decide)

/-! ## Fallback selection lemmas -/

/-- `find_best_variant` returns `None` exactly on the empty pool. -/
theorem find_best_variant_eq_none_iff (book : FontBook)
    (like : Option FontInfo) (variant : FontVariant) (optical_size : Option ℚ)
    (ids : List Nat) :
    book.find_best_variant like variant optical_size ids = none ↔ ids = [] := by
  constructor
  · intro h
    cases ids with
    | nil => rfl
    | cons c rest =>
      rw [FontBook.find_best_variant, bestLoop] at h
      rcases bestLoop_some_spec (keyFor book like variant) rest c with
        ⟨heq, -⟩ | ⟨n, -, heq, -, -, -⟩ <;>
      · rw [heq] at h
        exact absurd h (by simp)
  · intro h
    subst h
    rfl

/-- The fallback candidate pool contains exactly the in-bounds indices whose
face coverage contains the codepoint. -/
theorem mem_candidatesList (infos : List FontInfo) (ch : Char) (i : Nat) :
    i ∈ candidatesList infos ch ↔
      i < infos.length
        ∧ (infos.getD i default).coverage.contains ch.toNat = true := by
  rw [candidatesList]
  constructor
  · intro hmem
    obtain ⟨p, hp, hpi⟩ := List.mem_map.mp hmem
    obtain ⟨hpe, hpf⟩ := List.mem_filter.mp hp
    have hget : infos[p.1]? = some p.2 :=
      List.mem_enum_iff_getElem?.mp hpe
    subst hpi
    refine ⟨(List.getElem?_eq_some.mp hget).1, ?_⟩
    have hgetD : infos.getD p.1 default = p.2 := by
      rw [List.getD_eq_getElem?_getD, hget]
      rfl
    rw [hgetD]
    exact hpf
  · rintro ⟨hlt, hcov⟩
    refine List.mem_map.mpr ⟨(i, infos.getD i default), ?_, rfl⟩
    refine List.mem_filter.mpr ⟨?_, hcov⟩
    refine List.mem_enum_iff_getElem?.mpr ?_
    rw [List.getD_eq_getElem?_getD, List.getElem?_eq_getElem hlt]
    rfl

/-- Claim C4: `select_fallback` returns `None` iff the text has no
non-whitespace, non-default-ignorable character or no face covers the first
such character; when that character exists, the selection runs over exactly
the faces covering it. -/
theorem select_fallback_pool (book : FontBook) (like : Option FontInfo)
    (variant : FontVariant) (text : List Char) (optical_size : Option ℚ) :
    (book.select_fallback like variant text optical_size = none ↔
      firstValidChar text = none
      ∨ ∃ c, firstValidChar text = some c
          ∧ ∀ i < book.infos.length,
              (book.infoAt i).coverage.contains c.toNat = false)
    ∧ ∀ c, firstValidChar text = some c →
        book.select_fallback like variant text optical_size
          = book.find_best_variant like variant optical_size
              (candidatesList book.infos c)
        ∧ ∀ i, i ∈ candidatesList book.infos c ↔
            i < book.infos.length
              ∧ (book.infoAt i).coverage.contains c.toNat = true := by
  cases hfv : firstValidChar text with
  | none =>
    constructor
    · rw [FontBook.select_fallback, hfv]
      simp
    · intro c hc
      exact absurd hc (by simp)
  | some c0 =>
    constructor
    · rw [FontBook.select_fallback, hfv,
        find_best_variant_eq_none_iff, List.eq_nil_iff_forall_not_mem]
      constructor
      · intro h
        refine Or.inr ⟨c0, rfl, ?_⟩
        intro i hi
        have := h i
        rw [mem_candidatesList] at this
        rw [FontBook.infoAt]
        by_cases hcov : (book.infos.getD i default).coverage.contains
            c0.toNat = true
        · exact absurd ⟨hi, hcov⟩ this
        · exact Bool.not_eq_true _ ▸ hcov
      · rintro (h | ⟨c, hc, h⟩)
        · exact absurd h (by simp)
        · injection hc with hc
          subst hc
          intro i hmem
          rw [mem_candidatesList] at hmem
          have := h i hmem.1
          rw [FontBook.infoAt] at this
          rw [this] at hmem
          exact Bool.false_ne_true hmem.2
    · intro c hc
      injection hc with hc
      subst hc
      refine ⟨by rw [FontBook.select_fallback, hfv], ?_⟩
      intro i
      rw [mem_candidatesList, FontBook.infoAt]

/-- Witness for C4: the pool characterization instantiated on a concrete
catalog and the text "a". -/
theorem select_fallback_pool_witness :
    fallbackBook.select_fallback none query600 ("a".toList) none
      = fallbackBook.find_best_variant none query600 none
          (candidatesList fallbackBook.infos 'a')
    ∧ ∀ i, i ∈ candidatesList fallbackBook.infos 'a' ↔
        i < fallbackBook.infos.length
          ∧ (fallbackBook.infoAt i).coverage.contains ('a').toNat = true :=
  (select_fallback_pool fallbackBook none query600 ("a".toList) none).2 'a'
    (by decide)

/-! ## Families-map invariant -/

/-- `insertIdx` preserves the nonemptiness and index-bound invariant while
admitting the one fresh index. -/
theorem insertIdx_wf :
    ∀ (fams : List (List Char × List Nat)) (key : List Char) (n : Nat),
      (∀ p ∈ fams, p.2 ≠ [] ∧ ∀ i ∈ p.2, i < n) →
      ∀ p ∈ insertIdx fams key n, p.2 ≠ [] ∧ ∀ i ∈ p.2, i < n + 1 := by
  intro fams
  induction fams with
  | nil =>
    intro key n _ p hp
    simp only [insertIdx, List.mem_singleton] at hp
    subst hp
    exact ⟨by simp, by simp⟩
  | cons q fams ih =>
    intro key n h p hp
    obtain ⟨k, v⟩ := q
    rw [insertIdx] at hp
    split at hp
    · rcases List.mem_cons.mp hp with rfl | hp'
      · refine ⟨by simp, ?_⟩
        intro i hi
        rcases List.mem_append.mp hi with hi' | hi'
        · have := (h (k, v) (by simp)).2 i hi'
          omega
        · simp at hi'
          omega
      · have := h p (List.mem_cons_of_mem _ hp')
        exact ⟨this.1, fun i hi => by have := this.2 i hi; omega⟩
    · rcases List.mem_cons.mp hp with rfl | hp'
      · have := h (k, v) (by simp)
        exact ⟨this.1, fun i hi => by have := this.2 i hi; omega⟩
      · exact ih key n (fun p' hp'' => h p' (List.mem_cons_of_mem _ hp'')) p
          hp'

/-- Claim C10: after any sequence of pushes from the empty book, every vector
in the families map is nonempty and all its indices are within `infos`. -/
theorem families_indices_bound (infos : List FontInfo) :
    ∀ p ∈ (FontBook.from_infos infos).families,
      p.2 ≠ [] ∧ ∀ i ∈ p.2, i < (FontBook.from_infos infos).infos.length := by
  suffices h : ∀ (l : List FontInfo) (b : FontBook),
      (∀ p ∈ b.families, p.2 ≠ [] ∧ ∀ i ∈ p.2, i < b.infos.length) →
      ∀ p ∈ (List.foldl FontBook.push b l).families,
        p.2 ≠ [] ∧ ∀ i ∈ p.2, i < (List.foldl FontBook.push b l).infos.length by
    exact h infos FontBook.new
      (fun p hp => absurd hp (by simp [FontBook.new]))
  intro l
  induction l with
  | nil =>
    intro b hb
    simpa using hb
  | cons info l ih =>
    intro b hb
    rw [List.foldl_cons]
    refine ih (b.push info) ?_
    intro p hp
    rw [FontBook.push] at hp
    have := insertIdx_wf b.families (lowercase info.family) b.infos.length hb
      p hp
    simpa [FontBook.push] using this

/-- Witness for C10: the invariant instantiated on a one-face book at its
single families entry. -/
theorem families_indices_bound_witness :
    (("test".toList, [0]) : List Char × List Nat).2 ≠ []
    ∧ ∀ i ∈ (("test".toList, [0]) : List Char × List Nat).2,
        i < (FontBook.from_infos [staticFace]).infos.length :=
  families_indices_bound [staticFace] ("test".toList, [0]) (by decide)

end FontsSpec

